import Mathlib

/-!
Shallow embedding of the github-docs document indexing and retrieval engine.

Conventions of the embedding:
* JS strings are modelled as `List Char`; `s.length` is the list length,
  `s.trim()` is `trimList`, `s.substring(0, n)` is `List.take n`.
* JS numbers are modelled as `ℚ` (exact rationals).  `Math.sqrt` is modelled
  by `ratSqrt`, a rational square root that agrees with the real square root
  on perfect squares; every concrete input used below has perfect-square
  magnitudes, and no general theorem depends on the values of `ratSqrt`.
* Timestamps (ISO-8601 UTC strings in the source, compared both
  lexicographically by SQLite and chronologically via `new Date`) are
  modelled as `Nat`; for ISO-8601 UTC strings of a fixed format the two
  orders coincide.
* The SQLite store (tables `documents` and `embeddings`) is modelled as
  `StoreState`.  better-sqlite3 enables foreign-key enforcement by default,
  so a row deleted from `documents` (by `DELETE` or by `INSERT OR REPLACE`
  conflict resolution) cascades to its `embeddings` rows
  (`ON DELETE CASCADE`); the model performs that cascade explicitly.
  `AUTOINCREMENT` / rowid assignment is modelled by monotone counters, and
  `JSON.stringify`/`JSON.parse` of the metadata and the
  `Float32Array`/`Buffer` round-trip of embeddings are modelled as the
  identity on typed values.
* `Array.prototype.sort` (stable since ES2019) and SQL `ORDER BY` are
  modelled with the stable `List.mergeSort`; SQL row order among equal keys
  is not specified by SQLite, and no theorem below depends on tie order.
* markdown-it is an external parser; `chunkMarkdownContent` is embedded as a
  function of the raw content together with the token stream the parser
  produced for it, mirroring `src/build/embeddings.js` token walk exactly.
-/

namespace GithubDocs

/-- Character-list version of `String.trim`: drop leading and trailing
whitespace, as JS `.trim()` does. -/
def trimList (s : List Char) : List Char :=
  ((s.dropWhile Char.isWhitespace).reverse.dropWhile Char.isWhitespace).reverse

/-! ### Chunker (src/build/embeddings.js, `EmbeddingsService.chunkMarkdownContent`) -/

/-- A markdown-it token as consumed by the chunker: its `type`
(for example `"heading_open"`, `"inline"`, `"paragraph_close"`), its `tag`
(for example `"h1"`), and its inline/raw `content`. -/
structure Token where
  type : List Char
  tag : List Char
  content : List Char
deriving DecidableEq

/-- Output chunk of the chunker (`TextChunk` in the source; `title` is always
set by every push site, `section` is optional). -/
structure TextChunk where
  content : List Char
  title : List Char
  sectionLabel : Option (List Char)
deriving DecidableEq

/-- Embeds `extractTitleFromPath`:
`fileName.replace(/\.md$/, '').replace(/[-_]/g, ' ')` applied to the last
`/`-separated component of the path. -/
def extractTitleFromPath (filePath : List Char) : List Char :=
  let fileName := (filePath.splitOn '/').getLastD []
  let stripped :=
    if ".md".toList.isSuffixOf fileName then fileName.take (fileName.length - 3)
    else fileName
  stripped.map (fun c => if c = '-' ∨ c = '_' then ' ' else c)

/-- Whether a token's type ends in `_close` (the scan-stop condition
`tokens[j].type.endsWith('_close')`). -/
def isCloseType (t : Token) : Bool :=
  "_close".toList.isSuffixOf t.type

/-- Embeds the inner `while` scan of the element handler: starting after the
open token, collect `content + ' '` of every `inline` token until the first
token whose type ends in `_close`. -/
def collectUntilClose : List Token → List Char
  | [] => []
  | t :: ts =>
    if isCloseType t then []
    else (if t.type = "inline".toList then t.content ++ [' '] else []) ++
      collectUntilClose ts

/-- Whether a token starts one of the handled non-heading elements. -/
def isElementOpen (t : Token) : Prop :=
  t.type = "paragraph_open".toList ∨ t.type = "list_item_open".toList ∨
    t.type = "blockquote_open".toList ∨ t.type = "code_block".toList

instance (t : Token) : Decidable (isElementOpen t) := by
  unfold isElementOpen; infer_instance

/-- The `contentToAdd` computed by the element handler for an open token `t`
followed by the remaining tokens `rest`. -/
def contentToAdd (t : Token) (rest : List Token) : List Char :=
  if t.type = "code_block".toList then
    "```\n".toList ++ t.content ++ "\n```\n\n".toList
  else
    collectUntilClose rest ++ "\n\n".toList

/-- Accumulator state of the chunker loop. -/
structure ChunkState where
  chunks : List TextChunk
  currentTitle : List Char
  currentSection : List Char
  currentContent : List Char
deriving DecidableEq

/-- The chunk pushed when the accumulator is flushed:
`{content: currentContent.trim(), title: currentTitle, section: currentSection || undefined}`. -/
def mkChunk (st : ChunkState) : TextChunk :=
  ⟨trimList st.currentContent, st.currentTitle,
    if st.currentSection = [] then none else some st.currentSection⟩

/-- Flush the accumulator if it holds non-empty trimmed content
(`if (currentContent.trim()) { chunks.push(...); currentContent = '' }`). -/
def flushIfContent (st : ChunkState) : ChunkState :=
  if trimList st.currentContent ≠ [] then
    { st with chunks := st.chunks ++ [mkChunk st], currentContent := [] }
  else st

/-- One iteration of the chunker's `for` loop on the head token; `rest` is
the remainder of the stream (used for lookahead only, it is also processed
by subsequent iterations, exactly as the index-based source loop does). -/
def chunkStep (t : Token) (rest : List Token) (st : ChunkState) : ChunkState :=
  if t.type = "heading_open".toList then
    let st₁ := flushIfContent st
    match rest.head? with
    | some nt =>
      if nt.type = "inline".toList then
        let st₂ :=
          if t.tag = "h1".toList then
            { st₁ with currentTitle := nt.content, currentSection := [] }
          else
            { st₁ with currentSection := nt.content }
        { st₂ with currentContent :=
            st₂.currentContent ++ "# ".toList ++ nt.content ++ "\n\n".toList }
      else st₁
    | none => st₁
  else if isElementOpen t then
    let add := contentToAdd t rest
    if 1500 < st.currentContent.length + add.length then
      let st₁ := flushIfContent st
      { st₁ with currentContent := add }
    else
      { st with currentContent := st.currentContent ++ add }
  else st

/-- The chunker's main loop over the token stream. -/
def processTokens : List Token → ChunkState → ChunkState
  | [], st => st
  | t :: rest, st => processTokens rest (chunkStep t rest st)

/-- Initial accumulator: title seeded from the file path, empty section and
content. -/
def initState (filePath : List Char) : ChunkState :=
  ⟨[], extractTitleFromPath filePath, [], []⟩

/-- The chunk list produced by the main loop followed by the final flush
(before the degenerate-fallback check). -/
def mainChunks (filePath : List Char) (tokens : List Token) : List TextChunk :=
  (flushIfContent (processTokens tokens (initState filePath))).chunks

/-- The degenerate single-chunk fallback:
`{content: content.substring(0, 1500), title: currentTitle}` with the
title the loop ended with. -/
def fallbackChunk (content : List Char) (st : ChunkState) : TextChunk :=
  ⟨content.take 1500, st.currentTitle, none⟩

/-- Embeds `chunkMarkdownContent(content, filePath)` given the token stream
`tokens` that markdown-it produced for `content`: the main loop's chunks,
or the degenerate single-chunk fallback when the loop produced none. -/
def chunkMarkdownContent (content filePath : List Char) (tokens : List Token) :
    List TextChunk :=
  if mainChunks filePath tokens = [] then
    [fallbackChunk content (processTokens tokens (initState filePath))]
  else mainChunks filePath tokens

/-! ### Store (src/unnamed/part_001, `VectorStore`) -/

/-- The typed metadata blob stored (JSON-serialized in the source) with each
document chunk. -/
structure Metadata where
  title : Option (List Char)
  sectionLabel : Option (List Char)
  lastUpdated : Nat
  commitHash : Option (List Char)
deriving DecidableEq

/-- Input to `addDocument` (`DocumentChunk` in the source, before an id is
assigned). -/
structure DocumentChunk where
  repo : List Char
  filePath : List Char
  content : List Char
  embedding : List ℚ
  metadata : Metadata
deriving DecidableEq

/-- A row of the `documents` table. -/
structure DocRow where
  id : Nat
  repo : List Char
  filePath : List Char
  content : List Char
  metadata : Metadata
  lastUpdated : Nat
  commitHash : Option (List Char)
deriving DecidableEq

/-- A row of the `embeddings` table. -/
structure EmbRow where
  id : Nat
  documentId : Nat
  embedding : List ℚ
deriving DecidableEq

/-- The two tables plus the rowid counters. -/
structure StoreState where
  docs : List DocRow
  embs : List EmbRow
  nextDocId : Nat
  nextEmbId : Nat
deriving DecidableEq

/-- A freshly initialized database (SQLite rowids start at 1). -/
def emptyStore : StoreState := ⟨[], [], 1, 1⟩

/-- The `UNIQUE(repo, file_path, content)` conflict predicate of the
`documents` table. -/
def tripleMatches (d : DocumentChunk) (r : DocRow) : Prop :=
  r.repo = d.repo ∧ r.filePath = d.filePath ∧ r.content = d.content

instance (d : DocumentChunk) (r : DocRow) : Decidable (tripleMatches d r) := by
  unfold tripleMatches; infer_instance

/-- The `documents` row built from a chunk and an assigned id (the column
values bound by the document `INSERT`). -/
def newDocRow (d : DocumentChunk) (id : Nat) : DocRow :=
  ⟨id, d.repo, d.filePath, d.content, d.metadata,
    d.metadata.lastUpdated, d.metadata.commitHash⟩

/-- First statement of `addDocument`:
`INSERT OR REPLACE INTO documents ...`.  The REPLACE resolution deletes the
rows conflicting on `UNIQUE(repo, file_path, content)` and, with foreign
keys on, cascades those deletions to `embeddings`; then the new row is
inserted with a fresh autoincrement id. -/
def addDocumentStep1 (d : DocumentChunk) (s : StoreState) : StoreState :=
  let removedIds := (s.docs.filter (fun r => decide (tripleMatches d r))).map (·.id)
  { docs := s.docs.filter (fun r => !decide (tripleMatches d r)) ++ [newDocRow d s.nextDocId]
    embs := s.embs.filter (fun e => !decide (e.documentId ∈ removedIds))
    nextDocId := s.nextDocId + 1
    nextEmbId := s.nextEmbId }

/-- Second statement of `addDocument`:
`INSERT OR REPLACE INTO embeddings (document_id, embedding) VALUES (?, ?)`.
No id is supplied and `embeddings` has no unique constraint besides its
primary key, so this is a plain insert with a fresh rowid. -/
def addDocumentStep2 (docId : Nat) (emb : List ℚ) (s : StoreState) : StoreState :=
  { s with embs := s.embs ++ [⟨s.nextEmbId, docId, emb⟩],
           nextEmbId := s.nextEmbId + 1 }

/-- Embeds `addDocument`: the two statements run in sequence (there is no
enclosing transaction in the source), returning `lastInsertRowid`. -/
def addDocument (d : DocumentChunk) (s : StoreState) : Nat × StoreState :=
  (s.nextDocId, addDocumentStep2 s.nextDocId d.embedding (addDocumentStep1 d s))

/-- State after `addDocument`, discarding the returned id. -/
def addDocument' (d : DocumentChunk) (s : StoreState) : StoreState :=
  (addDocument d s).2

/-- Embeds `deleteRepo`: `DELETE FROM documents WHERE repo = ?`, with the
`ON DELETE CASCADE` removal of the deleted rows' embeddings. -/
def deleteRepo (repo : List Char) (s : StoreState) : StoreState :=
  let removedIds := (s.docs.filter (fun r => decide (r.repo = repo))).map (·.id)
  { s with docs := s.docs.filter (fun r => !decide (r.repo = repo)),
           embs := s.embs.filter (fun e => !decide (e.documentId ∈ removedIds)) }

/-- A row of `documents JOIN embeddings ON d.id = e.document_id`. -/
structure JoinedRow where
  doc : DocRow
  embedding : List ℚ
deriving DecidableEq

/-- The join `FROM documents d JOIN embeddings e ON d.id = e.document_id`. -/
def joinRows (s : StoreState) : List JoinedRow :=
  s.docs.flatMap (fun d =>
    (s.embs.filter (fun e => decide (e.documentId = d.id))).map
      (fun e => ⟨d, e.embedding⟩))

/-- Embeds `ORDER BY d.last_updated DESC` (stable; SQLite does not specify
tie order and no theorem below depends on it). -/
def sortByLastUpdatedDesc (l : List JoinedRow) : List JoinedRow :=
  l.mergeSort (fun a b => decide (b.doc.lastUpdated ≤ a.doc.lastUpdated))

/-- Rational model of `Math.sqrt`, exact on perfect squares. -/
def ratSqrt (q : ℚ) : ℚ :=
  (Nat.sqrt q.num.toNat : ℚ) / (Nat.sqrt q.den : ℚ)

/-- Embeds `cosineSimilarity(a, b)`.  The dot product folds over the indices
of `a` exactly as `a.reduce((sum, val, i) => sum + val * b[i], 0)` does; an
out-of-range `b[i]` is `undefined` in JS and poisons the result to `NaN`,
which ℚ cannot represent — it is modelled as `0` here, and no theorem below
evaluates `cosineSimilarity` on vectors of unequal length (the spec declares
that behavior undefined). -/
def cosineSimilarity (a b : List ℚ) : ℚ :=
  let dotProduct := a.enum.foldl (fun sum p => sum + p.2 * b.getD p.1 0) 0
  let magnitudeA := ratSqrt (a.foldl (fun sum v => sum + v * v) 0)
  let magnitudeB := ratSqrt (b.foldl (fun sum v => sum + v * v) 0)
  if magnitudeA = 0 ∨ magnitudeB = 0 then 0
  else dotProduct / (magnitudeA * magnitudeB)

/-- The join restricted by the optional `WHERE d.repo IN (...)` clause
(applied only when `repoFilter && repoFilter.length > 0`). -/
def filteredJoin (repoFilter : Option (List (List Char))) (s : StoreState) :
    List JoinedRow :=
  match repoFilter with
  | some f =>
    if f ≠ [] then (joinRows s).filter (fun j => decide (j.doc.repo ∈ f))
    else joinRows s
  | none => joinRows s

/-- The candidate rows scored by `searchSimilar`: the filtered join,
ordered by `last_updated DESC`, limited to `limit * 3` rows
(`params.push(limit * 3)`). -/
def searchCandidates (limit : Nat) (repoFilter : Option (List (List Char)))
    (s : StoreState) : List JoinedRow :=
  (sortByLastUpdatedDesc (filteredJoin repoFilter s)).take (limit * 3)

/-- Embeds `searchSimilar(queryEmbedding, limit, repoFilter)`: score the
candidate rows by cosine similarity, sort descending, return the first
`limit`. -/
def searchSimilar (q : List ℚ) (limit : Nat) (repoFilter : Option (List (List Char)))
    (s : StoreState) : List (JoinedRow × ℚ) :=
  let results := (searchCandidates limit repoFilter s).map
    (fun j => (j, cosineSimilarity q j.embedding))
  (results.mergeSort (fun a b => decide (b.2 ≤ a.2))).take limit

/-- Embeds `getDocumentsByRepo`: the join restricted to one repo, newest
`last_updated` first. -/
def getDocumentsByRepo (repo : List Char) (s : StoreState) : List JoinedRow :=
  sortByLastUpdatedDesc ((joinRows s).filter (fun j => decide (j.doc.repo = repo)))

/-- The caller-visible content of the store: every joined row projected to
its fields minus the store-assigned ids. -/
def visibleRows (s : StoreState) : List (List Char × List Char × List Char × Metadata × List ℚ) :=
  (joinRows s).map (fun j => (j.doc.repo, j.doc.filePath, j.doc.content, j.doc.metadata, j.embedding))

/-! ### Freshness gate (src/src/index.ts, `autoIndexRepositories`) -/

/-- Embeds the freshness gate at src/src/index.ts:49:
skip (reindex not needed) iff stats exist and the stored most-recent
`lastUpdated` is `>=` the source's timestamp. -/
def needsReindex (existing : Option Nat) (sourceLastUpdated : Nat) : Bool :=
  match existing with
  | some stored => !(decide (sourceLastUpdated ≤ stored))
  | none => true

/-! ### Store invariants -/

/-- Every embedding row references an existing document row. -/
def noOrphans (s : StoreState) : Prop :=
  ∀ e ∈ s.embs, ∃ d ∈ s.docs, d.id = e.documentId

/-- Every document id is below the autoincrement counter. -/
def idsFresh (s : StoreState) : Prop :=
  ∀ d ∈ s.docs, d.id < s.nextDocId

/-- Store wellformedness: both invariants (they hold of `emptyStore` and are
preserved by every operation). -/
def WF (s : StoreState) : Prop := noOrphans s ∧ idsFresh s

instance (s : StoreState) : Decidable (noOrphans s) := by
  unfold noOrphans; infer_instance

instance (s : StoreState) : Decidable (idsFresh s) := by
  unfold idsFresh; infer_instance

instance (s : StoreState) : Decidable (WF s) := by
  unfold WF; infer_instance

/-! ### Predicates on token streams used by the chunker theorems -/

/-- Bound on the text a single token can contribute in one handler
invocation: the heading line (with its `# ` marker and blank line) fits in
1500 characters, and an element's `contentToAdd` fits in 1500 characters.
Tokens that contribute nothing are unconstrained. -/
def headTokenBound (t : Token) (rest : List Token) : Bool :=
  if t.type = "heading_open".toList then
    match rest.head? with
    | some nt =>
      if nt.type = "inline".toList then
        decide (("# ".toList ++ nt.content ++ "\n\n".toList).length ≤ 1500)
      else true
    | none => true
  else if isElementOpen t then decide ((contentToAdd t rest).length ≤ 1500)
  else true

/-- Every token's single-handler contribution fits in 1500 characters. -/
def boundedTokens : List Token → Bool
  | [] => true
  | t :: rest => headTokenBound t rest && boundedTokens rest

/-- Whether a token opens one of the elements the chunker handles with a
lookahead (heading, paragraph, list item, block quote). -/
def isFlatOpen (t : Token) : Prop :=
  t.type = "heading_open".toList ∨ t.type = "paragraph_open".toList ∨
    t.type = "list_item_open".toList ∨ t.type = "blockquote_open".toList

instance (t : Token) : Decidable (isFlatOpen t) := by
  unfold isFlatOpen; infer_instance

/-- A flat token stream: a sequence of units, each either a lone
`code_block` token or an open token immediately followed by its single
`inline` token and its closing token.  Nested elements (a paragraph inside
a list item) are exactly what this excludes. -/
def flatTokens : List Token → Bool
  | [] => true
  | t :: rest =>
    if t.type = "code_block".toList then flatTokens rest
    else if isFlatOpen t then
      match rest with
      | i :: c :: r => decide (i.type = "inline".toList) && isCloseType c && flatTokens r
      | _ => false
    else false

/-- Number of occurrences of `x` contributed to the accumulator by each
unit of a flat token stream (headings as `# text` plus blank line, elements
as their inline text plus separator, code blocks as their fenced text). -/
def contribSum (x : Char) : List Token → Nat
  | [] => 0
  | t :: rest =>
    if t.type = "code_block".toList then
      ("```\n".toList ++ t.content ++ "\n```\n\n".toList).count x + contribSum x rest
    else if t.type = "heading_open".toList then
      match rest with
      | i :: _ :: r => ("# ".toList ++ i.content ++ "\n\n".toList).count x + contribSum x r
      | _ => 0
    else if t.type = "paragraph_open".toList ∨ t.type = "list_item_open".toList ∨
        t.type = "blockquote_open".toList then
      match rest with
      | i :: _ :: r => (i.content ++ [' '] ++ "\n\n".toList).count x + contribSum x r
      | _ => 0
    else 0

/-! ### Concrete fixtures used by counterexamples and witnesses -/

/-- A `paragraph_open` token. -/
def tokParagraphOpen : Token := ⟨"paragraph_open".toList, "p".toList, []⟩

/-- A `paragraph_close` token. -/
def tokParagraphClose : Token := ⟨"paragraph_close".toList, "p".toList, []⟩

/-- A `list_item_open` token. -/
def tokListItemOpen : Token := ⟨"list_item_open".toList, "li".toList, []⟩

/-- A `list_item_close` token. -/
def tokListItemClose : Token := ⟨"list_item_close".toList, "li".toList, []⟩

/-- An `inline` token with the given content. -/
def tokInline (s : List Char) : Token := ⟨"inline".toList, [], s⟩

/-- Token stream fixture: one paragraph whose inline text is 1501 copies of
`a` — a single element contribution larger than the size bound. -/
def tsOversized : List Token :=
  [tokParagraphOpen, tokInline (List.replicate 1501 'a'), tokParagraphClose]

/-- Token stream fixture: one list item containing one paragraph, as
markdown-it emits for `- x`. -/
def tsNestedListItem : List Token :=
  [tokListItemOpen, tokParagraphOpen, tokInline "x".toList,
    tokParagraphClose, tokListItemClose]

/-- A metadata blob with only `lastUpdated` set. -/
def mdWith (lu : Nat) : Metadata := ⟨none, none, lu, none⟩

/-- A document chunk of the collection `a/b` with the given path, embedding
and timestamp. -/
def docAB (fp : List Char) (emb : List ℚ) (lu : Nat) : DocumentChunk :=
  ⟨"a/b".toList, fp, fp, emb, mdWith lu⟩

/-- Store fixture for the retrieval claims: four unit-vector chunks, where
the single chunk matching the query vector `[1, 0]` exactly is the oldest
one (the other three are orthogonal to the query). -/
def storeC1 : StoreState :=
  addDocument' (docAB "f4".toList [1, 0] 1)
    (addDocument' (docAB "f3".toList [0, 1] 2)
      (addDocument' (docAB "f2".toList [0, 1] 3)
        (addDocument' (docAB "f1".toList [0, 1] 4) emptyStore)))

/-- Store fixture holding one two-dimensional chunk. -/
def storeDim2 : StoreState := addDocument' (docAB "f.md".toList [3, 4] 5) emptyStore

/-- A chunk whose embedding has length 1, mismatching `storeDim2`. -/
def docDim1 : DocumentChunk := docAB "g.md".toList [1] 6

/-! ### Helper lemmas about `trimList` and `count` -/

theorem dropWhile_idem {α : Type} (p : α → Bool) (l : List α) :
    (l.dropWhile p).dropWhile p = l.dropWhile p := by
  induction l with
  | nil => rfl
  | cons a t ih => by_cases h : p a <;> simp [List.dropWhile_cons, h, ih]

theorem dropWhile_length_le {α : Type} (p : α → Bool) (l : List α) :
    (l.dropWhile p).length ≤ l.length :=
  (List.dropWhile_suffix p).length_le

theorem trimList_length_le (s : List Char) : (trimList s).length ≤ s.length := by
  unfold trimList
  have h1 := dropWhile_length_le Char.isWhitespace s
  have h2 := dropWhile_length_le Char.isWhitespace
    (s.dropWhile Char.isWhitespace).reverse
  simp only [List.length_reverse] at *
  omega

theorem all_whitespace_of_trimList_eq_nil {s : List Char} (h : trimList s = []) :
    ∀ c ∈ s, c.isWhitespace := by
  unfold trimList at h
  rw [List.reverse_eq_nil_iff, List.dropWhile_eq_nil_iff] at h
  intro c hc
  by_cases hw : c.isWhitespace
  · exact hw
  · have hsplit : s.takeWhile Char.isWhitespace ++ s.dropWhile Char.isWhitespace = s :=
      List.takeWhile_append_dropWhile Char.isWhitespace s
    rw [← hsplit] at hc
    rcases List.mem_append.mp hc with hc | hc
    · exact absurd (List.mem_takeWhile_imp hc) hw
    · exact h c (List.mem_reverse.mpr hc)

theorem count_eq_zero_of_trimList_eq_nil {s : List Char} {x : Char}
    (h : trimList s = []) (hx : x.isWhitespace = false) : s.count x = 0 := by
  rw [List.count_eq_zero]
  intro hmem
  have := all_whitespace_of_trimList_eq_nil h x hmem
  rw [hx] at this
  exact absurd this (by simp)

theorem count_dropWhile {α : Type} [DecidableEq α] {p : α → Bool} {x : α}
    (hx : p x = false) (l : List α) :
    (l.dropWhile p).count x = l.count x := by
  induction l with
  | nil => rfl
  | cons a t ih =>
    by_cases h : p a
    · have hax : ¬ (a = x) := by
        intro e; rw [e, hx] at h; exact absurd h (by simp)
      rw [List.dropWhile_cons_of_pos h, ih, List.count_cons]
      simp [hax]
    · rw [List.dropWhile_cons_of_neg h]

theorem count_trimList {x : Char} (hx : x.isWhitespace = false) (s : List Char) :
    (trimList s).count x = s.count x := by
  unfold trimList
  rw [List.count_reverse, count_dropWhile hx, List.count_reverse, count_dropWhile hx]

theorem dropWhile_trimList (s : List Char) :
    (trimList s).dropWhile Char.isWhitespace = trimList s := by
  unfold trimList
  set u := s.dropWhile Char.isWhitespace with hu
  have hu2 : u.dropWhile Char.isWhitespace = u := dropWhile_idem _ _
  have hpre : (u.reverse.dropWhile Char.isWhitespace).reverse <+: u := by
    have hsuf : u.reverse.dropWhile Char.isWhitespace <:+ u.reverse :=
      List.dropWhile_suffix Char.isWhitespace
    rw [← List.reverse_suffix, List.reverse_reverse]
    exact hsuf
  obtain ⟨t, ht⟩ := hpre
  cases hX : (u.reverse.dropWhile Char.isWhitespace).reverse with
  | nil => rfl
  | cons a w =>
    have ha : ¬ (Char.isWhitespace a = true) := by
      intro hcon
      rw [hX] at ht
      have hstep : u.dropWhile Char.isWhitespace =
          (w ++ t).dropWhile Char.isWhitespace := by
        conv_lhs => rw [← ht]
        rw [List.cons_append, List.dropWhile_cons_of_pos hcon]
      rw [hu2, ← ht] at hstep
      have hlen := congrArg List.length hstep
      have hle := dropWhile_length_le Char.isWhitespace (w ++ t)
      simp at hlen
      simp [List.length_append] at hle
      omega
    rw [List.dropWhile_cons_of_neg ha]

theorem trimList_idem (s : List Char) : trimList (trimList s) = trimList s := by
  have key : ∀ t : List Char, t.dropWhile Char.isWhitespace = t →
      t.reverse.dropWhile Char.isWhitespace = t.reverse → trimList t = t := by
    intro t ha hb
    unfold trimList
    rw [ha, hb, List.reverse_reverse]
  refine key _ (dropWhile_trimList s) ?_
  show (trimList s).reverse.dropWhile Char.isWhitespace = (trimList s).reverse
  unfold trimList
  rw [List.reverse_reverse]
  exact dropWhile_idem _ _

theorem dropWhile_append_all {p : Char → Bool} {ws : List Char}
    (h : ∀ c ∈ ws, p c) (x : List Char) :
    (ws ++ x).dropWhile p = x.dropWhile p := by
  induction ws with
  | nil => rfl
  | cons a t ih =>
    rw [List.cons_append, List.dropWhile_cons_of_pos (h a (List.mem_cons_self a t))]
    exact ih (fun c hc => h c (List.mem_cons_of_mem a hc))

theorem trimList_append_ws {ws x : List Char} (h : trimList ws = []) :
    trimList (ws ++ x) = trimList x := by
  unfold trimList
  rw [dropWhile_append_all (all_whitespace_of_trimList_eq_nil h)]

/-! ### Claim C6 : freshness gate -/

/-- Claim C6: the freshness gate reports reindex needed when no stats exist,
needed exactly when the stored most-recent timestamp is strictly less than
the source timestamp, and not needed when it equals or exceeds it. -/
theorem needsReindex_freshness (stored source : Nat) :
    needsReindex none source = true ∧
    needsReindex (some stored) source = decide (stored < source) := by
  refine ⟨rfl, ?_⟩
  have h : needsReindex (some stored) source = !(decide (source ≤ stored)) := rfl
  rw [h, ← decide_not]
  exact decide_eq_decide.mpr (by omega)

/-! ### Claim C10 : default title normalization -/

/-- Claim C10 counterexample: for the path `docs/notes.txt` the extension is
not stripped — the title keeps `.txt`, contradicting "the file's extension
is stripped (whatever the extension is)". -/
theorem extractTitle_non_md_extension_kept_cex :
    extractTitleFromPath "docs/notes.txt".toList = "notes.txt".toList ∧
    "notes.txt".toList ≠ "notes".toList := by decide

/-- Claim C10 amended: the default title is the last path component with
only a trailing `.md` extension stripped (three characters removed exactly
when the name ends in `.md`, nothing removed otherwise) and with `-`/`_`
replaced by spaces. -/
theorem extractTitle_strips_only_md (fp fn : List Char)
    (hfn : fn = (fp.splitOn '/').getLastD []) :
    (∀ c ∈ extractTitleFromPath fp, c ≠ '-' ∧ c ≠ '_') ∧
    (".md".toList.isSuffixOf fn = true →
      (extractTitleFromPath fp).length + 3 = fn.length) ∧
    (".md".toList.isSuffixOf fn = false →
      (extractTitleFromPath fp).length = fn.length) := by
  subst hfn
  refine ⟨?_, ?_, ?_⟩
  · intro c hc
    unfold extractTitleFromPath at hc
    simp only [List.mem_map] at hc
    obtain ⟨a, ha, hc⟩ := hc
    rcases Decidable.em (a = '-' ∨ a = '_') with h | h
    · rw [if_pos h] at hc
      rw [← hc]
      exact ⟨by decide, by decide⟩
    · rw [if_neg h] at hc
      rw [← hc]
      exact not_or.mp h
  · intro h
    unfold extractTitleFromPath
    have h3 : 3 ≤ ((fp.splitOn '/').getLastD []).length := by
      have := List.isSuffixOf_iff_suffix.mp h
      simpa using this.length_le
    simp only [h, if_pos]
    simp only [List.length_map, List.length_take]
    omega
  · intro h
    unfold extractTitleFromPath
    simp only [h]
    simp [List.length_map]

/-- Claim C10 witness: the amended theorem applied at `docs/guide.md`. -/
theorem extractTitle_strips_only_md_witness :
    (extractTitleFromPath "docs/guide.md".toList).length + 3 =
      "guide.md".toList.length :=
  (extractTitle_strips_only_md "docs/guide.md".toList "guide.md".toList
    (by decide)).2.1 (by decide)

/-! ### Claim C2 : dimension mismatch is not rejected -/

/-- Claim C2 counterexample: upserting a chunk whose embedding has length 1
into a store whose existing chunk has a length-2 embedding succeeds — the
mismatched row is persisted unchanged, not rejected. -/
theorem addDocument_mismatch_persisted_cex :
    (joinRows (addDocument' docDim1 storeDim2)).map (·.embedding) =
      [[3, 4], [1]] := by decide

/-- Claim C2 amended: no dimension validation exists — for any store holding
a row whose embedding length differs from the new chunk's, `addDocument`
still persists the new chunk, and the stored embedding is exactly the one
supplied (never coerced or truncated, but also never rejected). -/
theorem addDocument_no_dimension_check (s : StoreState) (d : DocumentChunk)
    (j : JoinedRow) (hj : j ∈ joinRows s)
    (hmm : j.embedding.length ≠ d.embedding.length) :
    ∃ jr ∈ joinRows (addDocument' d s),
      jr.doc.repo = d.repo ∧ jr.doc.filePath = d.filePath ∧
      jr.doc.content = d.content ∧ jr.embedding = d.embedding := by
  refine ⟨⟨newDocRow d s.nextDocId, d.embedding⟩, ?_, rfl, rfl, rfl, rfl⟩
  unfold joinRows
  apply List.mem_flatMap.mpr
  refine ⟨newDocRow d s.nextDocId, ?_, ?_⟩
  · have hdocs : (addDocument' d s).docs =
        s.docs.filter (fun r => !decide (tripleMatches d r)) ++
          [newDocRow d s.nextDocId] := rfl
    rw [hdocs]
    exact List.mem_append_right _ (List.mem_singleton.mpr rfl)
  · apply List.mem_map.mpr
    refine ⟨⟨s.nextEmbId, s.nextDocId, d.embedding⟩, ?_, rfl⟩
    apply List.mem_filter.mpr
    constructor
    · have hembs : (addDocument' d s).embs =
          s.embs.filter (fun e => !decide (e.documentId ∈
            ((s.docs.filter (fun r => decide (tripleMatches d r))).map (·.id)))) ++
            [⟨s.nextEmbId, s.nextDocId, d.embedding⟩] := rfl
      rw [hembs]
      exact List.mem_append_right _ (List.mem_singleton.mpr rfl)
    · simp [newDocRow]

/-- Claim C2 witness: the amended theorem applied to the concrete
mismatched upsert. -/
theorem addDocument_no_dimension_check_witness :
    ∃ jr ∈ joinRows (addDocument' docDim1 storeDim2),
      jr.doc.repo = docDim1.repo ∧ jr.doc.filePath = docDim1.filePath ∧
      jr.doc.content = docDim1.content ∧ jr.embedding = docDim1.embedding :=
  addDocument_no_dimension_check storeDim2 docDim1
    ⟨⟨1, "a/b".toList, "f.md".toList, "f.md".toList, mdWith 5, 5, none⟩, [3, 4]⟩
    (by decide) (by decide)

/-! ### Claim C7 : upsert is not one atomic unit -/

/-- Claim C7 counterexample: after the first of the two separately
committed statements of `addDocument` (the document insert), the store
holds a chunk row but no embedding row at all — a crash between the two
statements leaves an orphaned chunk, so the pair is not written as one
atomic unit. -/
theorem addDocument_partial_write_cex :
    (addDocumentStep1 docDim1 emptyStore).docs ≠ [] ∧
    (addDocumentStep1 docDim1 emptyStore).embs = [] := by decide

/-- Claim C7 amended: `addDocument` runs as two separate auto-committed
statements with no enclosing transaction; after the first statement alone
the newly inserted chunk row has no embedding row (an orphaned chunk is
observable mid-write), although no reachable state ever holds an embedding
row without its chunk. -/
theorem addDocument_two_statements (s : StoreState) (d : DocumentChunk)
    (hwf : WF s) :
    (addDocument d s).2 =
      addDocumentStep2 s.nextDocId d.embedding (addDocumentStep1 d s) ∧
    (∃ r ∈ (addDocumentStep1 d s).docs,
      ∀ e ∈ (addDocumentStep1 d s).embs, e.documentId ≠ r.id) ∧
    noOrphans (addDocumentStep1 d s) := by
  obtain ⟨hno, hfresh⟩ := hwf
  refine ⟨rfl, ?_, ?_⟩
  · refine ⟨newDocRow d s.nextDocId, ?_, ?_⟩
    · have hdocs : (addDocumentStep1 d s).docs =
          s.docs.filter (fun r => !decide (tripleMatches d r)) ++
            [newDocRow d s.nextDocId] := rfl
      rw [hdocs]
      exact List.mem_append_right _ (List.mem_singleton.mpr rfl)
    · intro e he
      unfold addDocumentStep1 at he
      simp only [List.mem_filter] at he
      have ⟨dr, hdr, hid⟩ := hno e he.1
      have := hfresh dr hdr
      show e.documentId ≠ s.nextDocId
      omega
  · intro e he
    unfold addDocumentStep1 at he ⊢
    simp only [List.mem_filter] at he
    obtain ⟨he1, he2⟩ := he
    obtain ⟨dr, hdr, hid⟩ := hno e he1
    refine ⟨dr, ?_, hid⟩
    simp only [List.mem_append, List.mem_filter]
    left
    refine ⟨hdr, ?_⟩
    simp only [Bool.not_eq_true', decide_eq_false_iff_not]
    intro hmatch
    rw [Bool.not_eq_true', decide_eq_false_iff_not] at he2
    exact he2 (List.mem_map.mpr ⟨dr, List.mem_filter.mpr ⟨hdr, by simp [hmatch]⟩, hid⟩)

/-- Claim C7 witness: the amended theorem applied at a concrete store. -/
theorem addDocument_two_statements_witness :
    noOrphans (addDocumentStep1 docDim1 storeDim2) :=
  (addDocument_two_statements storeDim2 docDim1 (by decide)).2.2

/-! ### Claim C5 : cascade delete of embeddings -/

theorem noOrphans_deleteRepo (s : StoreState) (repo : List Char)
    (h : noOrphans s) : noOrphans (deleteRepo repo s) := by
  intro e he
  unfold deleteRepo at he ⊢
  simp only [List.mem_filter] at he
  obtain ⟨he1, he2⟩ := he
  obtain ⟨dr, hdr, hid⟩ := h e he1
  refine ⟨dr, ?_, hid⟩
  simp only [List.mem_filter]
  refine ⟨hdr, ?_⟩
  simp only [Bool.not_eq_true', decide_eq_false_iff_not]
  intro hrep
  rw [Bool.not_eq_true', decide_eq_false_iff_not] at he2
  exact he2 (List.mem_map.mpr ⟨dr, List.mem_filter.mpr ⟨hdr, by simp [hrep]⟩, hid⟩)

theorem noOrphans_addDocumentStep1 (s : StoreState) (d : DocumentChunk)
    (h : noOrphans s) : noOrphans (addDocumentStep1 d s) := by
  intro e he
  unfold addDocumentStep1 at he ⊢
  simp only [List.mem_filter] at he
  obtain ⟨he1, he2⟩ := he
  obtain ⟨dr, hdr, hid⟩ := h e he1
  refine ⟨dr, ?_, hid⟩
  simp only [List.mem_append, List.mem_filter]
  left
  refine ⟨hdr, ?_⟩
  simp only [Bool.not_eq_true', decide_eq_false_iff_not]
  intro hmatch
  rw [Bool.not_eq_true', decide_eq_false_iff_not] at he2
  exact he2 (List.mem_map.mpr ⟨dr, List.mem_filter.mpr ⟨hdr, by simp [hmatch]⟩, hid⟩)

theorem noOrphans_addDocument (s : StoreState) (d : DocumentChunk)
    (h : noOrphans s) : noOrphans (addDocument' d s) := by
  have h1 := noOrphans_addDocumentStep1 s d h
  intro e he
  have hembs : (addDocument' d s).embs =
      (addDocumentStep1 d s).embs ++
        [⟨(addDocumentStep1 d s).nextEmbId, s.nextDocId, d.embedding⟩] := rfl
  have hdocs : (addDocument' d s).docs = (addDocumentStep1 d s).docs := rfl
  rw [hembs] at he
  rw [hdocs]
  rcases List.mem_append.mp he with he | he
  · exact h1 e he
  · simp only [List.mem_singleton] at he
    subst he
    refine ⟨newDocRow d s.nextDocId, ?_, rfl⟩
    have hdocs1 : (addDocumentStep1 d s).docs =
        s.docs.filter (fun r => !decide (tripleMatches d r)) ++
          [newDocRow d s.nextDocId] := rfl
    rw [hdocs1]
    exact List.mem_append_right _ (List.mem_singleton.mpr rfl)

/-- Claim C5: when chunk rows are removed — by `deleteRepo` or by being
superseded during an upsert on the same uniqueness key — their embedding
rows are removed too: both operations preserve the invariant that every
embedding row references an existing chunk row, so orphaned embedding rows
never accumulate. -/
theorem store_cascade_no_orphans (s : StoreState) (d : DocumentChunk)
    (repo : List Char) (h : noOrphans s) :
    noOrphans (deleteRepo repo s) ∧ noOrphans (addDocument' d s) :=
  ⟨noOrphans_deleteRepo s repo h, noOrphans_addDocument s d h⟩

/-- Claim C5 witness: the cascade-preservation theorem applied at a
concrete non-empty store. -/
theorem store_cascade_no_orphans_witness :
    noOrphans (deleteRepo "a/b".toList storeDim2) ∧
    noOrphans (addDocument' docDim1 storeDim2) :=
  store_cascade_no_orphans storeDim2 docDim1 "a/b".toList (by decide)

/-! ### Claim C8 : non-empty chunk content -/

theorem chunks_flushIfContent (st : ChunkState)
    (h : ∀ ch ∈ st.chunks, trimList ch.content ≠ []) :
    ∀ ch ∈ (flushIfContent st).chunks, trimList ch.content ≠ [] := by
  unfold flushIfContent
  by_cases hc : trimList st.currentContent ≠ []
  · rw [if_pos hc]
    intro ch hch
    simp only at hch
    rcases List.mem_append.mp hch with h1 | h1
    · exact h ch h1
    · simp only [List.mem_singleton] at h1
      subst h1
      show trimList (mkChunk st).content ≠ []
      unfold mkChunk
      simp only
      rw [trimList_idem]
      exact hc
  · rw [if_neg hc]
    exact h

theorem chunkStep_chunks (t : Token) (rest : List Token) (st : ChunkState) :
    (chunkStep t rest st).chunks = (flushIfContent st).chunks ∨
    (chunkStep t rest st).chunks = st.chunks := by
  unfold chunkStep
  by_cases h1 : t.type = "heading_open".toList
  · rw [if_pos h1]
    cases h2 : rest.head? with
    | none => left; simp [h2]
    | some nt =>
      simp only [h2]
      by_cases h3 : nt.type = "inline".toList
      · rw [if_pos h3]
        by_cases h4 : t.tag = "h1".toList
        · rw [if_pos h4]; left; rfl
        · rw [if_neg h4]; left; rfl
      · rw [if_neg h3]; left; rfl
  · rw [if_neg h1]
    by_cases h2 : isElementOpen t
    · rw [if_pos h2]
      by_cases h3 : 1500 < st.currentContent.length + (contentToAdd t rest).length
      · rw [if_pos h3]; left; rfl
      · rw [if_neg h3]; right; rfl
    · rw [if_neg h2]; right; rfl

theorem processTokens_trim_nonempty (ts : List Token) (st : ChunkState)
    (h : ∀ ch ∈ st.chunks, trimList ch.content ≠ []) :
    ∀ ch ∈ (processTokens ts st).chunks, trimList ch.content ≠ [] := by
  induction ts generalizing st with
  | nil => exact h
  | cons t rest ih =>
    apply ih
    rcases chunkStep_chunks t rest st with he | he
    · rw [he]; exact chunks_flushIfContent st h
    · rw [he]; exact h

theorem mainChunks_trim_nonempty (fp : List Char) (ts : List Token) :
    ∀ ch ∈ mainChunks fp ts, trimList ch.content ≠ [] := by
  unfold mainChunks
  exact chunks_flushIfContent _
    (processTokens_trim_nonempty ts (initState fp)
      (by intro ch h; simp [initState] at h))

/-- Claim C8 counterexample: chunking the empty document (zero tokens)
takes the degenerate fallback path and produces exactly one chunk whose
content is empty — and therefore empty after trimming — contradicting "no
chunk produced by the chunker has empty content after trimming; empty
chunks are dropped before persistence (this includes the degenerate
single-chunk fallback path)". -/
theorem chunk_empty_fallback_cex :
    (chunkMarkdownContent [] "a.md".toList []).map (fun c => trimList c.content) =
      [[]] := by decide

/-- Claim C8 amended: every chunk produced by the token-walk paths has
non-empty post-trim content, but the degenerate fallback chunk is the raw
first 1500 characters of the input, untrimmed and unfiltered, and may be
empty or whitespace-only. -/
theorem chunk_nonempty_unless_fallback (content fp : List Char) (ts : List Token)
    (ch : TextChunk) (hch : ch ∈ chunkMarkdownContent content fp ts) :
    trimList ch.content ≠ [] ∨
      (mainChunks fp ts = [] ∧
        ch = fallbackChunk content (processTokens ts (initState fp))) := by
  unfold chunkMarkdownContent at hch
  by_cases hcs : mainChunks fp ts = []
  · right
    rw [if_pos hcs] at hch
    simp only [List.mem_singleton] at hch
    exact ⟨hcs, hch⟩
  · left
    rw [if_neg hcs] at hch
    exact mainChunks_trim_nonempty fp ts ch hch

/-- Claim C8 witness: the amended theorem applied to a one-paragraph token
stream, whose single produced chunk has non-empty trimmed content. -/
theorem chunk_nonempty_unless_fallback_witness :
    trimList (⟨"hello".toList, "a".toList, none⟩ : TextChunk).content ≠ [] ∨
      (mainChunks "a.md".toList
          [tokParagraphOpen, tokInline "hello".toList, tokParagraphClose] = [] ∧
        (⟨"hello".toList, "a".toList, none⟩ : TextChunk) =
          fallbackChunk "hello".toList
            (processTokens
              [tokParagraphOpen, tokInline "hello".toList, tokParagraphClose]
              (initState "a.md".toList))) :=
  chunk_nonempty_unless_fallback "hello".toList "a.md".toList
    [tokParagraphOpen, tokInline "hello".toList, tokParagraphClose]
    ⟨"hello".toList, "a".toList, none⟩ (by decide)

/-! ### Claim C3 : idempotent upsert, second embedding wins -/

theorem flatMap_congr {α β : Type} {l : List α} {f g : α → List β}
    (h : ∀ a ∈ l, f a = g a) : l.flatMap f = l.flatMap g := by
  induction l with
  | nil => rfl
  | cons a t ih =>
    rw [List.flatMap_cons, List.flatMap_cons, h a (List.mem_cons_self a t),
      ih (fun x hx => h x (List.mem_cons_of_mem a hx))]

theorem tripleMatches_newDocRow (d : DocumentChunk) (k : Nat) :
    tripleMatches d (newDocRow d k) := ⟨rfl, rfl, rfl⟩

theorem WF_addDocument (s : StoreState) (d : DocumentChunk) (h : WF s) :
    WF (addDocument' d s) := by
  refine ⟨noOrphans_addDocument s d h.1, ?_⟩
  intro r hr
  have hdocs : (addDocument' d s).docs =
      s.docs.filter (fun r => !decide (tripleMatches d r)) ++
        [newDocRow d s.nextDocId] := rfl
  have hnext : (addDocument' d s).nextDocId = s.nextDocId + 1 := rfl
  rw [hdocs] at hr
  rw [hnext]
  rcases List.mem_append.mp hr with hr | hr
  · exact Nat.lt_succ_of_lt (h.2 r (List.mem_filter.mp hr).1)
  · simp only [List.mem_singleton] at hr
    subst hr
    exact Nat.lt_succ_self _

theorem addDocument_replaces (s : StoreState) (d : DocumentChunk) (hwf : WF s) :
    ((addDocument' d s).docs.filter (fun r => decide (tripleMatches d r))).length = 1 ∧
    (∀ j ∈ joinRows (addDocument' d s), tripleMatches d j.doc →
      j.embedding = d.embedding) ∧
    (∃ j ∈ joinRows (addDocument' d s), tripleMatches d j.doc ∧
      j.embedding = d.embedding) := by
  obtain ⟨hno, hfresh⟩ := hwf
  have hdocs : (addDocument' d s).docs =
      s.docs.filter (fun r => !decide (tripleMatches d r)) ++
        [newDocRow d s.nextDocId] := rfl
  have hembs : (addDocument' d s).embs =
      s.embs.filter (fun e => !decide (e.documentId ∈
        ((s.docs.filter (fun r => decide (tripleMatches d r))).map (·.id)))) ++
        [⟨s.nextEmbId, s.nextDocId, d.embedding⟩] := rfl
  refine ⟨?_, ?_, ?_⟩
  · rw [hdocs, List.filter_append, List.filter_filter]
    have h1 : s.docs.filter
        (fun a => decide (tripleMatches d a) && !decide (tripleMatches d a)) = [] := by
      simp
    rw [h1]
    simp [decide_eq_true (tripleMatches_newDocRow d s.nextDocId)]
  · intro j hj hm
    unfold joinRows at hj
    obtain ⟨dr, hdr, hjf⟩ := List.mem_flatMap.mp hj
    obtain ⟨e, hef, hge⟩ := List.mem_map.mp hjf
    obtain ⟨he, heq⟩ := List.mem_filter.mp hef
    rw [← hge] at hm ⊢
    rw [hdocs] at hdr
    rcases List.mem_append.mp hdr with hdr | hdr
    · have hnot := (List.mem_filter.mp hdr).2
      simp only [Bool.not_eq_true', decide_eq_false_iff_not] at hnot
      exact absurd hm hnot
    · simp only [List.mem_singleton] at hdr
      subst hdr
      rw [decide_eq_true_eq] at heq
      have heqn : e.documentId = s.nextDocId := heq
      rw [hembs] at he
      rcases List.mem_append.mp he with he | he
      · have he' := (List.mem_filter.mp he).1
        obtain ⟨dd, hdd, hiddd⟩ := hno e he'
        have hlt := hfresh dd hdd
        omega
      · simp only [List.mem_singleton] at he
        subst he
        rfl
  · refine ⟨⟨newDocRow d s.nextDocId, d.embedding⟩, ?_,
      tripleMatches_newDocRow d s.nextDocId, rfl⟩
    unfold joinRows
    apply List.mem_flatMap.mpr
    refine ⟨newDocRow d s.nextDocId, ?_, ?_⟩
    · rw [hdocs]
      exact List.mem_append_right _ (List.mem_singleton.mpr rfl)
    · apply List.mem_map.mpr
      refine ⟨⟨s.nextEmbId, s.nextDocId, d.embedding⟩, ?_, rfl⟩
      apply List.mem_filter.mpr
      refine ⟨?_, by simp [newDocRow]⟩
      rw [hembs]
      exact List.mem_append_right _ (List.mem_singleton.mpr rfl)

/-- Claim C3: upserting the same (collection, filePath, content) triple
twice leaves exactly one matching row whose joined embedding is the second
call's embedding, and repeating an upsert with identical input leaves the
caller-visible store content unchanged (idempotent end state; only internal
rowids advance). -/
theorem upsert_idempotent_second_wins (s : StoreState) (d1 d2 : DocumentChunk)
    (hwf : WF s)
    (ht : d1.repo = d2.repo ∧ d1.filePath = d2.filePath ∧ d1.content = d2.content) :
    ((addDocument' d2 (addDocument' d1 s)).docs.filter
        (fun r => decide (tripleMatches d2 r))).length = 1 ∧
    (∀ j ∈ joinRows (addDocument' d2 (addDocument' d1 s)),
        tripleMatches d2 j.doc → j.embedding = d2.embedding) ∧
    (∃ j ∈ joinRows (addDocument' d2 (addDocument' d1 s)),
        tripleMatches d2 j.doc ∧ j.embedding = d2.embedding) ∧
    visibleRows (addDocument' d2 (addDocument' d2 s)) =
      visibleRows (addDocument' d2 s) := by
  obtain ⟨h1, h2, h3⟩ :=
    addDocument_replaces (addDocument' d1 s) d2 (WF_addDocument s d1 hwf)
  refine ⟨h1, h2, h3, ?_⟩
  have hA : (addDocument' d2 s).docs =
      s.docs.filter (fun r => !decide (tripleMatches d2 r)) ++
        [newDocRow d2 s.nextDocId] := rfl
  have hB : (addDocument' d2 s).embs =
      s.embs.filter (fun e => !decide (e.documentId ∈
        ((s.docs.filter (fun r => decide (tripleMatches d2 r))).map (·.id)))) ++
        [⟨s.nextEmbId, s.nextDocId, d2.embedding⟩] := rfl
  have hA2 : (addDocument' d2 (addDocument' d2 s)).docs =
      (addDocument' d2 s).docs.filter (fun r => !decide (tripleMatches d2 r)) ++
        [newDocRow d2 (s.nextDocId + 1)] := rfl
  have hB2 : (addDocument' d2 (addDocument' d2 s)).embs =
      (addDocument' d2 s).embs.filter (fun e => !decide (e.documentId ∈
        (((addDocument' d2 s).docs.filter
          (fun r => decide (tripleMatches d2 r))).map (·.id)))) ++
        [⟨s.nextEmbId + 1, s.nextDocId + 1, d2.embedding⟩] := rfl
  have hKK : (addDocument' d2 s).docs.filter (fun r => !decide (tripleMatches d2 r)) =
      s.docs.filter (fun r => !decide (tripleMatches d2 r)) := by
    rw [hA, List.filter_append, List.filter_filter]
    have hs : ([newDocRow d2 s.nextDocId].filter
        (fun r => !decide (tripleMatches d2 r))) = [] := by
      simp [decide_eq_true (tripleMatches_newDocRow d2 s.nextDocId)]
    rw [hs, List.append_nil]
    exact List.filter_congr (fun a _ => by rw [Bool.and_self])
  have hrem : ((addDocument' d2 s).docs.filter
      (fun r => decide (tripleMatches d2 r))).map (·.id) = [s.nextDocId] := by
    rw [hA, List.filter_append, List.filter_filter]
    have hz : s.docs.filter
        (fun a => decide (tripleMatches d2 a) && !decide (tripleMatches d2 a)) = [] := by
      simp
    rw [hz, List.nil_append]
    have hsingle : ([newDocRow d2 s.nextDocId].filter
        (fun r => decide (tripleMatches d2 r))) = [newDocRow d2 s.nextDocId] := by
      simp [decide_eq_true (tripleMatches_newDocRow d2 s.nextDocId)]
    rw [hsingle]
    rfl
  have hFlt : ∀ e ∈ s.embs.filter (fun e => !decide (e.documentId ∈
      ((s.docs.filter (fun r => decide (tripleMatches d2 r))).map (·.id)))),
      e.documentId < s.nextDocId := by
    intro e he
    obtain ⟨dd, hdd, hiddd⟩ := hwf.1 e (List.mem_filter.mp he).1
    have := hwf.2 dd hdd
    omega
  have hembs2 : (addDocument' d2 (addDocument' d2 s)).embs =
      s.embs.filter (fun e => !decide (e.documentId ∈
        ((s.docs.filter (fun r => decide (tripleMatches d2 r))).map (·.id)))) ++
        [⟨s.nextEmbId + 1, s.nextDocId + 1, d2.embedding⟩] := by
    rw [hB2, hrem, hB, List.filter_append]
    have hone : ([(⟨s.nextEmbId, s.nextDocId, d2.embedding⟩ : EmbRow)].filter
        (fun e => !decide (e.documentId ∈ [s.nextDocId]))) = [] := by
      simp
    rw [hone, List.append_nil]
    congr 1
    apply List.filter_eq_self.mpr
    intro e he
    have := hFlt e he
    simp
    omega
  unfold visibleRows joinRows
  rw [List.map_flatMap, List.map_flatMap, hA2, hKK, hA,
    List.flatMap_append, List.flatMap_append,
    List.flatMap_singleton, List.flatMap_singleton]
  congr 1
  · apply flatMap_congr
    intro dr hdr
    have hid : dr.id < s.nextDocId := hwf.2 dr (List.mem_filter.mp hdr).1
    rw [hembs2, hB, List.filter_append, List.filter_append]
    have e2 : ([(⟨s.nextEmbId + 1, s.nextDocId + 1, d2.embedding⟩ : EmbRow)].filter
        (fun e => decide (e.documentId = dr.id))) = [] := by
      simp
      omega
    have e1 : ([(⟨s.nextEmbId, s.nextDocId, d2.embedding⟩ : EmbRow)].filter
        (fun e => decide (e.documentId = dr.id))) = [] := by
      simp
      omega
    rw [e1, e2]
  · rw [hembs2, hB, List.filter_append, List.filter_append]
    have hF2 : (s.embs.filter (fun e => !decide (e.documentId ∈
        ((s.docs.filter (fun r => decide (tripleMatches d2 r))).map (·.id))))).filter
        (fun e => decide (e.documentId = (newDocRow d2 (s.nextDocId + 1)).id)) = [] := by
      apply List.filter_eq_nil_iff.mpr
      intro e he
      have := hFlt e he
      simp [newDocRow]
      omega
    have hF1 : (s.embs.filter (fun e => !decide (e.documentId ∈
        ((s.docs.filter (fun r => decide (tripleMatches d2 r))).map (·.id))))).filter
        (fun e => decide (e.documentId = (newDocRow d2 s.nextDocId).id)) = [] := by
      apply List.filter_eq_nil_iff.mpr
      intro e he
      have := hFlt e he
      simp [newDocRow]
      omega
    rw [hF1, hF2]
    simp [newDocRow]

/-- Claim C3 witness: the idempotent-upsert theorem applied at the empty
store with two same-triple chunks carrying different embeddings. -/
theorem upsert_idempotent_second_wins_witness :
    ((addDocument' (docAB "f.md".toList [0, 1] 7)
        (addDocument' (docAB "f.md".toList [3, 4] 5) emptyStore)).docs.filter
        (fun r => decide (tripleMatches (docAB "f.md".toList [0, 1] 7) r))).length = 1 :=
  (upsert_idempotent_second_wins emptyStore
    (docAB "f.md".toList [3, 4] 5) (docAB "f.md".toList [0, 1] 7)
    (by decide) (by decide)).1

/-! ### Claim C4 : chunk size bound -/

theorem flushIfContent_size (st : ChunkState)
    (h1 : (trimList st.currentContent).length ≤ 1500)
    (h2 : ∀ ch ∈ st.chunks, ch.content.length ≤ 1500) :
    (∀ ch ∈ (flushIfContent st).chunks, ch.content.length ≤ 1500) ∧
    trimList (flushIfContent st).currentContent = [] := by
  unfold flushIfContent
  by_cases hc : trimList st.currentContent ≠ []
  · rw [if_pos hc]
    refine ⟨?_, rfl⟩
    intro ch hch
    rcases List.mem_append.mp hch with h | h
    · exact h2 ch h
    · simp only [List.mem_singleton] at h
      subst h
      exact h1
  · rw [if_neg hc]
    exact ⟨h2, not_not.mp hc⟩

theorem chunkStep_size (t : Token) (rest : List Token) (st : ChunkState)
    (hb : headTokenBound t rest = true)
    (h1 : (trimList st.currentContent).length ≤ 1500)
    (h2 : ∀ ch ∈ st.chunks, ch.content.length ≤ 1500) :
    (trimList (chunkStep t rest st).currentContent).length ≤ 1500 ∧
    ∀ ch ∈ (chunkStep t rest st).chunks, ch.content.length ≤ 1500 := by
  obtain ⟨hf2, hfcc⟩ := flushIfContent_size st h1 h2
  unfold chunkStep
  unfold headTokenBound at hb
  by_cases ht1 : t.type = "heading_open".toList
  · rw [if_pos ht1] at hb ⊢
    cases hr : rest.head? with
    | none =>
      simp only [hr]
      refine ⟨?_, hf2⟩
      rw [hfcc]
      simp
    | some nt =>
      simp only [hr] at hb ⊢
      by_cases hnt : nt.type = "inline".toList
      · rw [if_pos hnt] at hb ⊢
        rw [decide_eq_true_eq] at hb
        have hbound : (trimList ((flushIfContent st).currentContent ++
            "# ".toList ++ nt.content ++ "\n\n".toList)).length ≤ 1500 := by
          rw [List.append_assoc, List.append_assoc, trimList_append_ws hfcc]
          refine le_trans (trimList_length_le _) ?_
          rw [← List.append_assoc]
          exact hb
        by_cases htag : t.tag = "h1".toList
        · rw [if_pos htag]
          exact ⟨hbound, hf2⟩
        · rw [if_neg htag]
          exact ⟨hbound, hf2⟩
      · rw [if_neg hnt]
        refine ⟨?_, hf2⟩
        rw [hfcc]
        simp
  · rw [if_neg ht1] at hb ⊢
    by_cases ht2 : isElementOpen t
    · rw [if_pos ht2] at hb ⊢
      rw [decide_eq_true_eq] at hb
      by_cases hg : 1500 < st.currentContent.length + (contentToAdd t rest).length
      · rw [if_pos hg]
        refine ⟨?_, hf2⟩
        show (trimList (contentToAdd t rest)).length ≤ 1500
        exact le_trans (trimList_length_le _) hb
      · rw [if_neg hg]
        refine ⟨?_, h2⟩
        show (trimList (st.currentContent ++ contentToAdd t rest)).length ≤ 1500
        have := trimList_length_le (st.currentContent ++ contentToAdd t rest)
        rw [List.length_append] at this
        omega
    · rw [if_neg ht2]
      exact ⟨h1, h2⟩

theorem processTokens_size : ∀ (ts : List Token) (st : ChunkState),
    boundedTokens ts = true →
    (trimList st.currentContent).length ≤ 1500 →
    (∀ ch ∈ st.chunks, ch.content.length ≤ 1500) →
    (trimList (processTokens ts st).currentContent).length ≤ 1500 ∧
    ∀ ch ∈ (processTokens ts st).chunks, ch.content.length ≤ 1500 := by
  intro ts
  induction ts with
  | nil => intro st _ h1 h2; exact ⟨h1, h2⟩
  | cons t rest ih =>
    intro st hb h1 h2
    simp only [boundedTokens, Bool.and_eq_true] at hb
    obtain ⟨g1, g2⟩ := chunkStep_size t rest st hb.1 h1 h2
    exact ih (chunkStep t rest st) hb.2 g1 g2

set_option maxRecDepth 100000 in
/-- Claim C4 counterexample: a document consisting of one paragraph of 1501
characters yields a single chunk of 1501 characters — the size guard never
splits a single element's contribution, so "every produced chunk's content
length is at most 1500 characters (except the fallback)" fails. -/
theorem chunk_size_bound_cex :
    (chunkMarkdownContent "x".toList "a.md".toList tsOversized).map
      (fun ch => ch.content.length) = [1501] := by decide

/-- Claim C4 amended: every produced chunk's content is at most 1500
characters provided each single token contribution fits the bound (each
element's collected text at most 1500 characters, each heading line with
its markup at most 1500).  A single oversized element or heading is emitted
whole as one oversized chunk rather than split; the fallback chunk is
capped at 1500 characters of the raw input. -/
theorem chunk_size_bound_of_bounded_elements (content fp : List Char)
    (ts : List Token) (hb : boundedTokens ts = true) :
    ∀ ch ∈ chunkMarkdownContent content fp ts, ch.content.length ≤ 1500 := by
  intro ch hch
  unfold chunkMarkdownContent at hch
  by_cases hcs : mainChunks fp ts = []
  · rw [if_pos hcs] at hch
    simp only [List.mem_singleton] at hch
    subst hch
    show (content.take 1500).length ≤ 1500
    simp [List.length_take]
  · rw [if_neg hcs] at hch
    unfold mainChunks at hch
    obtain ⟨hp1, hp2⟩ := processTokens_size ts (initState fp) hb
      (by show (trimList []).length ≤ 1500; decide)
      (by intro c hc; exact absurd hc (List.not_mem_nil c))
    exact (flushIfContent_size _ hp1 hp2).1 ch hch

/-- Claim C4 witness: the amended bound applied to a one-paragraph stream
whose single chunk is the paragraph text. -/
theorem chunk_size_bound_of_bounded_elements_witness :
    (⟨"hello".toList, "a".toList, none⟩ : TextChunk).content.length ≤ 1500 :=
  chunk_size_bound_of_bounded_elements "hello".toList "a.md".toList
    [tokParagraphOpen, tokInline "hello".toList, tokParagraphClose] (by decide)
    ⟨"hello".toList, "a".toList, none⟩ (by decide)

/-! ### Claim C9 : each element's text appended exactly once -/

theorem isCloseType_not_heading {c : Token} (hc : isCloseType c = true) :
    ¬ (c.type = "heading_open".toList) := by
  intro h
  unfold isCloseType at hc
  rw [h] at hc
  exact absurd hc (by decide)

theorem isCloseType_not_element {c : Token} (hc : isCloseType c = true) :
    ¬ isElementOpen c := by
  intro h
  unfold isCloseType at hc
  unfold isElementOpen at h
  rcases h with h | h | h | h <;> rw [h] at hc <;> exact absurd hc (by decide)

theorem chunkStep_ignores_close (c : Token) (rest : List Token) (st : ChunkState)
    (hc : isCloseType c = true) : chunkStep c rest st = st := by
  unfold chunkStep
  rw [if_neg (isCloseType_not_heading hc), if_neg (isCloseType_not_element hc)]

theorem chunkStep_ignores_inline (i : Token) (rest : List Token) (st : ChunkState)
    (hi : i.type = "inline".toList) : chunkStep i rest st = st := by
  unfold chunkStep
  have h1 : ¬ (i.type = "heading_open".toList) := by rw [hi]; decide
  have h2 : ¬ isElementOpen i := by
    unfold isElementOpen
    rw [hi]
    decide
  rw [if_neg h1, if_neg h2]

theorem flushIfContent_count (x : Char) (hx : x.isWhitespace = false)
    (st : ChunkState) :
    ((flushIfContent st).chunks.map (fun ch => ch.content.count x)).sum =
      (st.chunks.map (fun ch => ch.content.count x)).sum +
        st.currentContent.count x ∧
    (flushIfContent st).currentContent.count x = 0 := by
  unfold flushIfContent
  by_cases hc : trimList st.currentContent ≠ []
  · rw [if_pos hc]
    constructor
    · show ((st.chunks ++ [mkChunk st]).map (fun ch => ch.content.count x)).sum = _
      rw [List.map_append, List.sum_append]
      simp [mkChunk, count_trimList hx]
    · show ([] : List Char).count x = 0
      simp
  · rw [if_neg hc]
    have h0 : st.currentContent.count x = 0 :=
      count_eq_zero_of_trimList_eq_nil (not_not.mp hc) hx
    exact ⟨by omega, h0⟩

theorem chunkStep_element_count (x : Char) (hx : x.isWhitespace = false)
    (t : Token) (rest : List Token) (st : ChunkState)
    (ht1 : ¬ (t.type = "heading_open".toList)) (ht2 : isElementOpen t) :
    ((chunkStep t rest st).chunks.map (fun ch => ch.content.count x)).sum +
      (chunkStep t rest st).currentContent.count x =
    ((st.chunks.map (fun ch => ch.content.count x)).sum +
      st.currentContent.count x) + (contentToAdd t rest).count x := by
  unfold chunkStep
  rw [if_neg ht1, if_pos ht2]
  obtain ⟨hfl1, hfl2⟩ := flushIfContent_count x hx st
  by_cases hg : 1500 < st.currentContent.length + (contentToAdd t rest).length
  · rw [if_pos hg]
    show ((flushIfContent st).chunks.map (fun ch => ch.content.count x)).sum +
      (contentToAdd t rest).count x = _
    rw [hfl1]
  · rw [if_neg hg]
    show (st.chunks.map (fun ch => ch.content.count x)).sum +
      (st.currentContent ++ contentToAdd t rest).count x = _
    rw [List.count_append]
    omega

theorem chunkStep_heading_count (x : Char) (hx : x.isWhitespace = false)
    (t i : Token) (rest' : List Token) (st : ChunkState)
    (ht : t.type = "heading_open".toList) (hi : i.type = "inline".toList) :
    ((chunkStep t (i :: rest') st).chunks.map (fun ch => ch.content.count x)).sum +
      (chunkStep t (i :: rest') st).currentContent.count x =
    ((st.chunks.map (fun ch => ch.content.count x)).sum +
      st.currentContent.count x) +
      ("# ".toList ++ i.content ++ "\n\n".toList).count x := by
  unfold chunkStep
  rw [if_pos ht]
  simp only [List.head?_cons]
  rw [if_pos hi]
  obtain ⟨hfl1, hfl2⟩ := flushIfContent_count x hx st
  by_cases htag : t.tag = "h1".toList
  · rw [if_pos htag]
    show ((flushIfContent st).chunks.map (fun ch => ch.content.count x)).sum +
      ((flushIfContent st).currentContent ++ "# ".toList ++ i.content ++
        "\n\n".toList).count x = _
    simp only [List.count_append]
    rw [hfl1, hfl2]
    omega
  · rw [if_neg htag]
    show ((flushIfContent st).chunks.map (fun ch => ch.content.count x)).sum +
      ((flushIfContent st).currentContent ++ "# ".toList ++ i.content ++
        "\n\n".toList).count x = _
    simp only [List.count_append]
    rw [hfl1, hfl2]
    omega

theorem processTokens_count (x : Char) (hx : x.isWhitespace = false)
    (ts : List Token) :
    flatTokens ts = true → ∀ st : ChunkState,
    ((processTokens ts st).chunks.map (fun ch => ch.content.count x)).sum +
      (processTokens ts st).currentContent.count x =
    ((st.chunks.map (fun ch => ch.content.count x)).sum +
      st.currentContent.count x) + contribSum x ts := by
  induction ts using flatTokens.induct with
  | case1 =>
    intro _ st
    simp [processTokens, contribSum]
  | case2 t rest hcb ih =>
    intro hf st
    rw [flatTokens.eq_def] at hf
    simp only [] at hf
    rw [if_pos hcb] at hf
    have ht1 : ¬ (t.type = "heading_open".toList) := by rw [hcb]; decide
    have ht2 : isElementOpen t := by unfold isElementOpen; right; right; right; exact hcb
    have hadd : contentToAdd t rest =
        "```\n".toList ++ t.content ++ "\n```\n\n".toList := by
      unfold contentToAdd
      rw [if_pos hcb]
    have hstep := chunkStep_element_count x hx t rest st ht1 ht2
    have hrec := ih hf (chunkStep t rest st)
    have hcs : contribSum x (t :: rest) =
        ("```\n".toList ++ t.content ++ "\n```\n\n".toList).count x +
          contribSum x rest := by
      rw [contribSum.eq_def]
      simp only []
      rw [if_pos hcb]
    show ((processTokens rest (chunkStep t rest st)).chunks.map
        (fun ch => ch.content.count x)).sum +
      (processTokens rest (chunkStep t rest st)).currentContent.count x = _
    rw [hrec, hstep, hadd, hcs]
    omega
  | case3 t hcb hopen i c r ih =>
    intro hf st
    rw [flatTokens.eq_def] at hf
    simp only [] at hf
    rw [if_neg hcb, if_pos hopen] at hf
    rw [Bool.and_eq_true] at hf
    obtain ⟨hic, hfr⟩ := hf
    rw [Bool.and_eq_true] at hic
    obtain ⟨hi, hc⟩ := hic
    rw [decide_eq_true_eq] at hi
    show ((processTokens r (chunkStep c r (chunkStep i (c :: r)
        (chunkStep t (i :: c :: r) st)))).chunks.map
        (fun ch => ch.content.count x)).sum +
      (processTokens r (chunkStep c r (chunkStep i (c :: r)
        (chunkStep t (i :: c :: r) st)))).currentContent.count x = _
    rw [chunkStep_ignores_inline i (c :: r) _ hi, chunkStep_ignores_close c r _ hc]
    have hrec := ih hfr (chunkStep t (i :: c :: r) st)
    by_cases hth : t.type = "heading_open".toList
    · have hstep := chunkStep_heading_count x hx t i (c :: r) st hth hi
      have hcs : contribSum x (t :: i :: c :: r) =
          ("# ".toList ++ i.content ++ "\n\n".toList).count x + contribSum x r := by
        rw [contribSum.eq_def]
        simp only []
        rw [if_neg hcb, if_pos hth]
      rw [hrec, hstep, hcs]
      omega
    · have hel : t.type = "paragraph_open".toList ∨ t.type = "list_item_open".toList ∨
          t.type = "blockquote_open".toList := by
        unfold isFlatOpen at hopen
        rcases hopen with h | h | h | h
        · exact absurd h hth
        · exact Or.inl h
        · exact Or.inr (Or.inl h)
        · exact Or.inr (Or.inr h)
      have ht2 : isElementOpen t := by
        unfold isElementOpen
        rcases hel with h | h | h
        · exact Or.inl h
        · exact Or.inr (Or.inl h)
        · exact Or.inr (Or.inr (Or.inl h))
      have hstep := chunkStep_element_count x hx t (i :: c :: r) st hth ht2
      have hinotclose : ¬ (isCloseType i = true) := by
        unfold isCloseType
        rw [hi]
        decide
      have hcadd : contentToAdd t (i :: c :: r) =
          ((i.content ++ [' ']) ++ ([] : List Char)) ++ "\n\n".toList := by
        unfold contentToAdd
        rw [if_neg hcb]
        congr 1
        show collectUntilClose (i :: c :: r) = (i.content ++ [' ']) ++ []
        unfold collectUntilClose
        rw [if_neg hinotclose, if_pos hi]
        congr 1
        show collectUntilClose (c :: r) = []
        unfold collectUntilClose
        rw [if_pos hc]
      have hcs : contribSum x (t :: i :: c :: r) =
          (i.content ++ [' '] ++ "\n\n".toList).count x + contribSum x r := by
        rw [contribSum.eq_def]
        simp only []
        rw [if_neg hcb, if_neg hth, if_pos hel]
      rw [hrec, hstep, hcadd, hcs]
      simp only [List.count_append, List.count_nil]
      omega
  | case4 t rest hcb hopen hshape =>
    intro hf st
    exact absurd hf (by
      rw [flatTokens.eq_def]
      simp only []
      rw [if_neg hcb, if_pos hopen]
      match rest, hshape with
      | [], _ => decide
      | [i], _ => decide
      | i :: c :: r, hshape => exact absurd rfl (hshape i c r))
  | case5 t rest hcb hopen =>
    intro hf st
    exact absurd hf (by
      rw [flatTokens.eq_def]
      simp only []
      rw [if_neg hcb, if_neg hopen]
      decide)

/-- Claim C9 counterexample: for the token stream markdown-it emits for a
one-item list (`list_item_open, paragraph_open, inline, paragraph_close,
list_item_close`), the inner paragraph's inline text is collected twice —
once by the list-item handler's scan and once by the paragraph's own
handler — so the character `x`, occurring once in the stream's token
contents, occurs twice in the produced chunks' content. -/
theorem chunk_inline_duplicated_cex :
    ((chunkMarkdownContent "x".toList "a.md".toList tsNestedListItem).map
      (fun ch => ch.content.count 'x')).sum = 2 ∧
    (tsNestedListItem.map (fun t => t.content.count 'x')).sum = 1 := by decide

/-- Claim C9 amended: for flat token streams — each handled element's open
token immediately followed by its single inline token and its close token,
i.e. no element nested inside another handled element — every element's
inline text is appended exactly once: for every non-whitespace character,
its total count over the produced chunks equals the sum of the per-element
contributions.  An element nested inside another handled element is
collected once per enclosing handler and its text can appear twice. -/
theorem chunk_inline_once_flat (fp : List Char) (ts : List Token) (x : Char)
    (hflat : flatTokens ts = true) (hx : x.isWhitespace = false) :
    ((mainChunks fp ts).map (fun ch => ch.content.count x)).sum =
      contribSum x ts := by
  unfold mainChunks
  obtain ⟨hf1, hf2⟩ := flushIfContent_count x hx (processTokens ts (initState fp))
  rw [hf1]
  rw [processTokens_count x hx ts hflat (initState fp)]
  simp [initState]

/-- Claim C9 witness: the amended theorem applied to a flat one-paragraph
stream. -/
theorem chunk_inline_once_flat_witness :
    ((mainChunks "a.md".toList
        [tokParagraphOpen, tokInline "ab".toList, tokParagraphClose]).map
      (fun ch => ch.content.count 'b')).sum =
      contribSum 'b' [tokParagraphOpen, tokInline "ab".toList, tokParagraphClose] :=
  chunk_inline_once_flat "a.md".toList
    [tokParagraphOpen, tokInline "ab".toList, tokParagraphClose] 'b'
    (by decide) (by decide)

/-! ### Claim C1 : searchSimilar and the recency window -/

set_option allowUnsafeReducibility true in
attribute [local semireducible] Rat.add Rat.mul Rat.inv Rat.sub in
unseal List.merge List.mergeSort in
/-- Claim C1 counterexample: in a store of four chunks where the only chunk
matching the query exactly (similarity 1) is the oldest, `searchSimilar`
with `topK = 1` returns a similarity-0 chunk: the SQL pre-selection
`ORDER BY last_updated DESC LIMIT topK*3` scores only the three most
recent rows, so the result is not the global top-K. -/
theorem searchSimilar_misses_best_cex :
    ((searchSimilar [1, 0] 1 none storeC1).map (fun r => r.2) = [0]) ∧
    (∃ j ∈ joinRows storeC1, cosineSimilarity [1, 0] j.embedding = 1) := by decide

/-- Claim C1 amended: `searchSimilar` computes cosine similarity only for
the at most `topK * 3` most recently updated rows of the (optionally
collection-filtered) join; it returns those candidates' top `topK` by
similarity, sorted descending.  The result coincides with the global top-K
exactly in the regime where the filtered row count is at most `topK * 3`:
then the result is the `topK`-prefix of a similarity-sorted permutation of
the whole candidate set. -/
theorem searchSimilar_topK_within_window (q : List ℚ) (limit : Nat)
    (rf : Option (List (List Char))) (s : StoreState) :
    List.Pairwise (fun a b : JoinedRow × ℚ => b.2 ≤ a.2)
      (searchSimilar q limit rf s) ∧
    (∀ r ∈ searchSimilar q limit rf s, r.1 ∈ searchCandidates limit rf s) ∧
    ((filteredJoin rf s).length ≤ limit * 3 →
      ∃ L, ((filteredJoin rf s).map
          (fun j => (j, cosineSimilarity q j.embedding))).Perm L ∧
        List.Pairwise (fun a b : JoinedRow × ℚ => b.2 ≤ a.2) L ∧
        searchSimilar q limit rf s = L.take limit) := by
  have htrans : ∀ (a b c : JoinedRow × ℚ),
      decide (b.2 ≤ a.2) = true → decide (c.2 ≤ b.2) = true →
      decide (c.2 ≤ a.2) = true := by
    intro a b c h1 h2
    rw [decide_eq_true_eq] at h1 h2 ⊢
    exact le_trans h2 h1
  have htotal : ∀ (a b : JoinedRow × ℚ),
      (decide (b.2 ≤ a.2) || decide (a.2 ≤ b.2)) = true := by
    intro a b
    rcases le_total b.2 a.2 with h | h <;> simp [h]
  refine ⟨?_, ?_, ?_⟩
  · have hs := List.sorted_mergeSort htrans htotal
      ((searchCandidates limit rf s).map (fun j => (j, cosineSimilarity q j.embedding)))
    have hs' := hs.sublist (List.take_sublist limit _)
    exact hs'.imp (fun h => of_decide_eq_true h)
  · intro r hr
    have hr1 : r ∈ ((searchCandidates limit rf s).map
        (fun j => (j, cosineSimilarity q j.embedding))).mergeSort
        (fun a b => decide (b.2 ≤ a.2)) := List.mem_of_mem_take hr
    rw [List.mem_mergeSort] at hr1
    obtain ⟨j, hj, hje⟩ := List.mem_map.mp hr1
    rw [← hje]
    exact hj
  · intro hlen
    have hcand : searchCandidates limit rf s =
        sortByLastUpdatedDesc (filteredJoin rf s) := by
      unfold searchCandidates
      apply List.take_of_length_le
      unfold sortByLastUpdatedDesc
      rw [List.length_mergeSort]
      exact hlen
    have hperm : List.Perm
        ((filteredJoin rf s).map (fun j => (j, cosineSimilarity q j.embedding)))
        (((searchCandidates limit rf s).map
          (fun j => (j, cosineSimilarity q j.embedding))).mergeSort
          (fun a b => decide (b.2 ≤ a.2))) := by
      have hp1 : List.Perm
          ((filteredJoin rf s).map (fun j => (j, cosineSimilarity q j.embedding)))
          ((searchCandidates limit rf s).map
            (fun j => (j, cosineSimilarity q j.embedding))) := by
        rw [hcand]
        exact List.Perm.map _ (List.mergeSort_perm (filteredJoin rf s) _).symm
      exact hp1.trans (List.mergeSort_perm _ _).symm
    have hsorted2 : List.Pairwise (fun a b : JoinedRow × ℚ => b.2 ≤ a.2)
        (((searchCandidates limit rf s).map
          (fun j => (j, cosineSimilarity q j.embedding))).mergeSort
          (fun a b => decide (b.2 ≤ a.2))) :=
      (List.sorted_mergeSort htrans htotal _).imp (fun h => of_decide_eq_true h)
    have heq : searchSimilar q limit rf s =
        ((((searchCandidates limit rf s).map
          (fun j => (j, cosineSimilarity q j.embedding))).mergeSort
          (fun a b => decide (b.2 ≤ a.2))).take limit) := rfl
    exact ⟨_, hperm, hsorted2, heq⟩

/-- Claim C1 witness: the amended theorem's global-top-K part applied at a
one-row store, where the window covers everything. -/
theorem searchSimilar_topK_within_window_witness :
    ∃ L, ((filteredJoin none storeDim2).map
        (fun j => (j, cosineSimilarity [3, 4] j.embedding))).Perm L ∧
      List.Pairwise (fun a b : JoinedRow × ℚ => b.2 ≤ a.2) L ∧
      searchSimilar [3, 4] 1 none storeDim2 = L.take 1 :=
  (searchSimilar_topK_within_window [3, 4] 1 none storeDim2).2.2 (by decide)

end GithubDocs
